import Mathlib

/-!
Verification of the Ren'Py translation-entry extractor
(`ModuleFolders/FileReader/RenpyReader.py`).

Lines are modelled as `List Char`; a file is a `List (List Char)`.
Python's `str.strip` / `str.lstrip`, `str.find` / `str.rfind`,
`str.startswith` and the three regular expressions of the reader are
translated into executable Lean functions, and the driving loop of
`on_read_source` (which always advances its cursor) is modelled with
explicit fuel, returning `none` exactly when the fuel runs out.
-/

/-- Python `str.lstrip()`: drop leading whitespace. -/
def pyLstrip (l : List Char) : List Char :=
  l.dropWhile Char.isWhitespace

/-- Python `str.strip()`: drop leading and trailing whitespace. -/
def pyStrip (l : List Char) : List Char :=
  ((l.dropWhile Char.isWhitespace).reverse.dropWhile Char.isWhitespace).reverse

/-- Python `str.startswith(p)`. -/
def pyStartswith : List Char → List Char → Bool
  | [], _ => true
  | _ :: _, [] => false
  | p :: ps, x :: xs => (x == p) && pyStartswith ps xs

/-- Python `str.find(c)` for a single character: index of the first
occurrence, or `none` (Python returns `-1`). -/
def py_find (c : Char) : List Char → Option Nat
  | [] => none
  | x :: xs => if x == c then some 0 else (py_find c xs).map (fun k => k + 1)

/-- Python `str.rfind(c)` for a single character: index of the last
occurrence, or `none`. -/
def py_rfind (c : Char) (l : List Char) : Option Nat :=
  (py_find c l.reverse).map (fun k => l.length - 1 - k)

/-- The literal `"old "`. -/
def kwOld : List Char := "old ".toList

/-- The literal `"new "`. -/
def kwNew : List Char := "new ".toList

/-- The literal `"translate "`. -/
def kwTranslate : List Char := "translate ".toList

/-- The literal `"game/"`. -/
def kwGame : List Char := "game/".toList

/-- The literal `"renpy/"`. -/
def kwRenpy : List Char := "renpy/".toList

/-- `RenpyReader._extract_quoted_robust`: the text strictly between the
first and the last double quote of the line; `none` when there is no
quote or the first and last quote coincide. -/
def extract_quoted_robust (line : List Char) : Option (List Char) :=
  match py_find '"' line with
  | none => none
  | some first_quote_index =>
    match py_rfind '"' line with
    | none => none
    | some last_quote_index =>
      if last_quote_index = first_quote_index then none
      else some ((line.drop (first_quote_index + 1)).take
                   (last_quote_index - (first_quote_index + 1)))

/-- A character of the class `[\w\s@]` of the reader's regexes
(ASCII interpretation: word characters, whitespace, `@`). -/
def isWsaChar (c : Char) : Bool :=
  c.isAlphanum || c == '_' || c == '@' || c.isWhitespace

/-- `COMMENT_TRANSLATION_START_PATTERN.match`, i.e. the regex
`^\s*#\s*`: after optional whitespace the line starts with `#`. -/
def commentMatch (l : List Char) : Bool :=
  match l.dropWhile Char.isWhitespace with
  | c :: _ => c == '#'
  | [] => false

/-- Helper for `CODE_TRANSLATION_START_PATTERN`: after the leading
letter, the regex `[\w\s@]*\s+"` must match, i.e. some run of
`[\w\s@]` characters whose last one is whitespace is followed by `"`. -/
def codeTail : List Char → Bool
  | c :: d :: rest =>
    isWsaChar c && ((c.isWhitespace && (d == '"')) || codeTail (d :: rest))
  | _ => false

/-- `CODE_TRANSLATION_START_PATTERN.match`, i.e. the regex
`^\s*(?:[a-zA-Z][\w\s@]*\s+)?"`. -/
def codeMatch (l : List Char) : Bool :=
  match l.dropWhile Char.isWhitespace with
  | [] => false
  | c :: rest => c == '"' || (c.isAlpha && codeTail rest)

/-- `TAG_PATTERN.match(...)`, i.e. the regex `^\s*([a-zA-Z][\w\s@]*)\s+"`,
returning `group(1)`.  With Python's greedy/backtracking semantics the
match succeeds iff, after optional whitespace, a letter is followed by a
nonempty maximal `[\w\s@]` run whose last character is whitespace and the
character right after the run is `"`; `group(1)` is then the letter
followed by the run minus its final whitespace character. -/
def tagGroup (l : List Char) : Option (List Char) :=
  match l.dropWhile Char.isWhitespace with
  | [] => none
  | c :: rest =>
    if c.isAlpha then
      match (rest.takeWhile isWsaChar).getLast? with
      | some w =>
        if w.isWhitespace then
          match rest.dropWhile isWsaChar with
          | q :: _ =>
            if q == '"' then some (c :: (rest.takeWhile isWsaChar).dropLast)
            else none
          | [] => none
        else none
      | none => none
    else none

/-- Python `s.startswith(chr(34))` on an already stripped string. -/
def startsQuote : List Char → Bool
  | c :: _ => c == '"'
  | [] => false

/-- `comment_line.split(chr(35), 1)[-1]`: everything after the first `#`,
or the whole line when there is no `#`. -/
def afterHash (l : List Char) : List Char :=
  match py_find '#' l with
  | none => l
  | some k => l.drop (k + 1)

/-- The metadata test of `on_read_source` lines 139-143: the content
after the leading `#`, left-stripped, starts with `game/` or `renpy/`. -/
def comment_disqualified (line : List Char) : Bool :=
  pyStartswith kwGame (pyLstrip (afterHash line)) ||
  pyStartswith kwRenpy (pyLstrip (afterHash line))

/-- The three `format_type` values of the reader. -/
inductive FormatType where
  | old_new
  | comment_tag
  | comment_no_tag
deriving DecidableEq

/-- One emitted entry (the dict appended to `entries`). -/
structure Entry where
  source : List Char
  translated : List Char
  new_line_num : Nat
  format_type : FormatType
  tag : Option (List Char)
deriving DecidableEq

/-- Outcome of the inner `for j in range(i+1, len(lines))` scan of the
`old` branch: a matching `new` line with its extracted text, a stop on
an `old`/comment/code-shaped line at index `j`, or end of input. -/
inductive ScanResult where
  | found (j : Nat) (translated : List Char)
  | blocked (j : Nat)
  | exhausted
deriving DecidableEq

/-- The inner scan of the `old` branch (`on_read_source` lines 97-118),
walking the suffix `rest` of the input whose head has index `j`. -/
def oldNewScanFrom : List (List Char) → Nat → ScanResult
  | [], _ => ScanResult.exhausted
  | next_line :: rest, j =>
    if pyStartswith kwNew (pyStrip next_line) then
      match extract_quoted_robust next_line with
      | some t => ScanResult.found j t
      | none => oldNewScanFrom rest (j + 1)
    else if pyStartswith kwOld (pyStrip next_line) ||
            commentMatch (pyStrip next_line) ||
            codeMatch (pyStrip next_line) then
      ScanResult.blocked j
    else oldNewScanFrom rest (j + 1)

/-- The inner scan of the `old` branch, started at absolute index `j`. -/
def oldNewScan (lines : List (List Char)) (j : Nat) : ScanResult :=
  oldNewScanFrom (lines.drop j) j

/-- `RenpyReader._find_next_relevant_line`, walking the suffix `rest` of
the input whose head has index `i`. -/
def findNextRelevantFrom : List (List Char) → Nat → Option (Nat × List Char)
  | [], _ => none
  | line :: rest, i =>
    if pyStartswith kwTranslate (pyStrip line) then none
    else if codeMatch (pyStrip line) then some (i, line)
    else findNextRelevantFrom rest (i + 1)

/-- `RenpyReader._find_next_relevant_line(lines, start_index)`. -/
def find_next_relevant_line (lines : List (List Char)) (start_index : Nat) :
    Option (Nat × List Char) :=
  findNextRelevantFrom (lines.drop start_index) start_index

/-- The entry-construction part of the comment branch of
`on_read_source` (lines 137-177), for the comment `line` and the code
line `code_line` found at index `code_line_num`. -/
def commentEntryCore (code_line_num : Nat) (line code_line : List Char) :
    Option Entry :=
  match (if comment_disqualified line then none
         else extract_quoted_robust line),
        extract_quoted_robust code_line with
  | some comment_source, some code_text =>
    match tagGroup (afterHash line), tagGroup (pyStrip code_line) with
    | some comment_tag, some code_tag =>
      if pyStrip comment_tag = pyStrip code_tag then
        some ⟨comment_source, code_text, code_line_num,
              FormatType.comment_tag, some (pyStrip code_tag)⟩
      else none
    | _, _ =>
      if startsQuote (pyLstrip (afterHash line)) &&
         startsQuote (pyStrip code_line) then
        some ⟨comment_source, code_text, code_line_num,
              FormatType.comment_no_tag, none⟩
      else none
  | _, _ => none

/-- The comment branch of `on_read_source` (lines 126-179): the entry
it emits, if any, for the comment `line` at index `i`. -/
def commentBranch (lines : List (List Char)) (i : Nat) (line : List Char) :
    Option Entry :=
  match find_next_relevant_line lines (i + 1) with
  | none => none
  | some (code_line_num, code_line) =>
    commentEntryCore code_line_num line code_line

/-- One iteration of the outer `while i < len(lines)` loop at cursor `i`
on `line = lines[i]`: the entry emitted in this iteration (if any) and
the value of the cursor at the start of the next iteration. -/
def stepAt (lines : List (List Char)) (i : Nat) (line : List Char) :
    Option Entry × Nat :=
  if pyStartswith kwOld (pyStrip line) then
    match extract_quoted_robust line with
    | some source =>
      match oldNewScan lines (i + 1) with
      | ScanResult.found j t =>
        (some ⟨source, t, j, FormatType.old_new, none⟩, j + 1)
      | ScanResult.blocked _ => (none, i + 1)
      | ScanResult.exhausted => (none, i + 1)
    | none => (none, i + 1)
  else if commentMatch (pyStrip line) then
    match commentBranch lines i line with
    | some e => (some e, e.new_line_num + 1)
    | none => (none, i + 1)
  else (none, i + 1)

/-- The `while` loop of `on_read_source`, with explicit fuel; `none`
means the fuel ran out before the cursor reached the end. -/
def parseLoopO (lines : List (List Char)) : Nat → Nat → Option (List Entry)
  | 0, i => if lines.length ≤ i then some [] else none
  | fuel + 1, i =>
    if lines.length ≤ i then some []
    else
      match stepAt lines i (lines.getD i []) with
      | (some e, n) => (parseLoopO lines fuel n).map (fun rest => e :: rest)
      | (none, n) => parseLoopO lines fuel n

/-- `RenpyReader.on_read_source` restricted to its parsing core: the
list of entries extracted from the given lines. -/
def on_read_source (lines : List (List Char)) : List Entry :=
  (parseLoopO lines lines.length 0).getD []

/-! Concrete inputs used by the claim theorems. -/

/-- Two lines: an `old` line immediately followed by a `new` line. -/
def demoOldNew : List (List Char) :=
  [ "old \"A\"".toList, "new \"B\"".toList ]

/-- An `old` line, a `translate ` block boundary, then a `new` line. -/
def demoOldBoundary : List (List Char) :=
  [ "old \"A\"".toList, "translate t:".toList, "new \"B\"".toList ]

/-- A tagged comment line, a quoted `voice` directive, then the tagged
code line -- the input of claim C2. -/
def demoVoice : List (List Char) :=
  [ "# happy \"Hi!\"".toList, "voice \"v.ogg\"".toList, "happy \"Hi!\"".toList ]

/-- Two consecutive `old` lines followed by a `new` line. -/
def demoTwoOldNew : List (List Char) :=
  [ "old \"A\"".toList, "old \"B\"".toList, "new \"C\"".toList ]

/-- Two consecutive `old` lines. -/
def demoTwoOld : List (List Char) :=
  [ "old \"A\"".toList, "old \"B\"".toList ]

/-- A single `translate ` block-boundary line. -/
def demoTl : List (List Char) :=
  [ "translate t:".toList ]

/-- A comment line directly followed by a `translate ` boundary. -/
def demoCmtTl : List (List Char) :=
  [ "# \"x\"".toList, "translate t:".toList ]

/-- A plain comment/code pair. -/
def demoComment : List (List Char) :=
  [ "# \"x\"".toList, "\"y\"".toList ]

/-- A `new` line without a valid quoted span, then a valid `new` line. -/
def demoBadNew : List (List Char) :=
  [ "new B".toList, "new \"C\"".toList ]

/-- A comment whose content starts with the path-like text `images`,
which is not one of the two disqualifying prefixes. -/
def demoImages : List (List Char) :=
  [ "# images \"Hi\"".toList, "images \"Hi2\"".toList ]

/-! General helper lemmas. -/

/-- Indexing into a dropped suffix. -/
theorem getD_drop {α : Type} (d : α) (l : List α) :
    ∀ (n m : Nat), (l.drop n).getD m d = l.getD (n + m) d := by
  induction l with
  | nil => intro n m; simp [List.drop_nil]
  | cons x xs ih =>
    intro n m
    cases n with
    | zero => simp
    | succ n =>
      simp only [List.drop_succ_cons, Nat.succ_add, List.getD_cons_succ]
      exact ih n m

/-- A list with an in-range index splits as the indexed element followed
by the rest. -/
theorem drop_eq_getD_cons {α : Type} (d : α) (l : List α) :
    ∀ (j : Nat), j < l.length → l.drop j = l.getD j d :: l.drop (j + 1) := by
  induction l with
  | nil => intro j h; simp at h
  | cons x xs ih =>
    intro j h
    cases j with
    | zero => simp
    | succ j =>
      simpa [List.drop_succ_cons, List.getD_cons_succ] using
        ih j (by simpa using Nat.lt_of_succ_lt_succ h)

/-- `pyStartswith p l` holds exactly when `l` extends `p`. -/
theorem pyStartswith_iff (p : List Char) :
    ∀ l : List Char, pyStartswith p l = true ↔ ∃ t, l = p ++ t := by
  induction p with
  | nil =>
    intro l
    simp [pyStartswith]
  | cons c ps ih =>
    intro l
    cases l with
    | nil =>
      simp [pyStartswith]
    | cons x xs =>
      simp only [pyStartswith, Bool.and_eq_true, beq_iff_eq, ih xs]
      constructor
      · rintro ⟨rfl, t, rfl⟩
        exact ⟨t, rfl⟩
      · rintro ⟨t, h⟩
        cases h
        exact ⟨rfl, t, rfl⟩

/-- `py_find` misses characters that are not in the list. -/
theorem py_find_of_not_mem {c : Char} :
    ∀ {l : List Char}, c ∉ l → py_find c l = none := by
  intro l
  induction l with
  | nil => intro _; rfl
  | cons x xs ih =>
    intro h
    have hx : ¬ (x == c) = true := by
      simp only [beq_iff_eq]
      intro hxc
      exact h (hxc ▸ List.mem_cons_self x xs)
    have hxs : c ∉ xs := fun hm => h (List.mem_cons_of_mem x hm)
    simp [py_find, hx, ih hxs]

/-- `py_find` on a list whose first occurrence of `c` follows the
`c`-free preamble `a`. -/
theorem py_find_split {c : Char} :
    ∀ (a t : List Char), c ∉ a → py_find c (a ++ c :: t) = some a.length := by
  intro a
  induction a with
  | nil =>
    intro t _
    simp [py_find]
  | cons x xs ih =>
    intro t h
    have hx : ¬ (x == c) = true := by
      simp only [beq_iff_eq]
      intro hxc
      exact h (hxc ▸ List.mem_cons_self x xs)
    have hxs : c ∉ xs := fun hm => h (List.mem_cons_of_mem x hm)
    simp [py_find, hx, ih t hxs]

/-- Every list containing `c` splits at the first occurrence of `c`. -/
theorem first_split {c : Char} :
    ∀ {l : List Char}, c ∈ l → ∃ a t, l = a ++ c :: t ∧ c ∉ a := by
  intro l
  induction l with
  | nil => intro h; cases h
  | cons x xs ih =>
    intro h
    by_cases hx : x = c
    · exact ⟨[], xs, by simp [hx], by simp⟩
    · rcases List.mem_cons.mp h with h1 | h2
      · exact absurd h1.symm hx
      · rcases ih h2 with ⟨a, t, rfl, ha⟩
        exact ⟨x :: a, t, rfl, by
          intro hmem
          rcases List.mem_cons.mp hmem with h3 | h4
          · exact hx h3.symm
          · exact ha h4⟩

/-- Every list containing `c` splits at the last occurrence of `c`. -/
theorem last_split {c : Char} :
    ∀ {l : List Char}, c ∈ l → ∃ s b, l = s ++ c :: b ∧ c ∉ b := by
  intro l hl
  have hrev : c ∈ l.reverse := List.mem_reverse.mpr hl
  rcases first_split hrev with ⟨a, t, hsplit, ha⟩
  refine ⟨t.reverse, a.reverse, ?_, by simpa using ha⟩
  have := congrArg List.reverse hsplit
  simpa [List.reverse_append] using this

/-! Characterization lemmas for the scanners and the step function. -/

/-- The lookahead scanner only reports indices at or after its start. -/
theorem findNextRelevantFrom_ge :
    ∀ (rest : List (List Char)) (i k : Nat) (l : List Char),
      findNextRelevantFrom rest i = some (k, l) → i ≤ k := by
  intro rest
  induction rest with
  | nil =>
    intro i k l h
    simp [findNextRelevantFrom] at h
  | cons line rs ih =>
    intro i k l h
    simp only [findNextRelevantFrom] at h
    split at h
    · exact absurd h (by simp)
    · split at h
      · have hk : i = k := by
          have := Option.some.inj h
          exact congrArg Prod.fst this
        omega
      · have := ih (i + 1) k l h
        omega

/-- No line inspected by the lookahead scanner, up to and including the
reported match, is a `translate ` block boundary. -/
theorem findNextRelevantFrom_no_translate :
    ∀ (rest : List (List Char)) (i k : Nat) (l : List Char),
      findNextRelevantFrom rest i = some (k, l) →
      ∀ d, i + d ≤ k →
        pyStartswith kwTranslate (pyStrip (rest.getD d [])) = false := by
  intro rest
  induction rest with
  | nil =>
    intro i k l h
    simp [findNextRelevantFrom] at h
  | cons line rs ih =>
    intro i k l h d hd
    simp only [findNextRelevantFrom] at h
    split at h
    · exact absurd h (by simp)
    · rename_i htl
      split at h
      · have hk : i = k := by
          have := Option.some.inj h
          exact congrArg Prod.fst this
        have hd0 : d = 0 := by omega
        subst hd0
        simpa using Bool.of_not_eq_true htl
      · cases d with
        | zero =>
          simpa using Bool.of_not_eq_true htl
        | succ d =>
          have := ih (i + 1) k l h d (by omega)
          simpa [List.getD_cons_succ] using this

/-- If every line strictly before index `k` fails the code-candidate
test and line `k` is a `translate ` boundary, the lookahead scanner
reports no match. -/
theorem findNextRelevantFrom_none :
    ∀ (rest : List (List Char)) (i k : Nat),
      i ≤ k → k - i < rest.length →
      (∀ d, i + d < k → codeMatch (pyStrip (rest.getD d [])) = false) →
      pyStartswith kwTranslate (pyStrip (rest.getD (k - i) [])) = true →
      findNextRelevantFrom rest i = none := by
  intro rest
  induction rest with
  | nil =>
    intro i k _ hlen _ _
    simp at hlen
  | cons line rs ih =>
    intro i k hik hlen hcode htl
    simp only [findNextRelevantFrom]
    by_cases hk : k = i
    · subst hk
      have : k - k = 0 := by omega
      rw [this] at htl
      simp only [List.getD_cons_zero] at htl
      rw [if_pos htl]
    · have hik' : i + 1 ≤ k := by omega
      have hline : codeMatch (pyStrip line) = false := by
        have := hcode 0 (by omega)
        simpa using this
      by_cases htl0 : pyStartswith kwTranslate (pyStrip line) = true
      · rw [if_pos htl0]
      · rw [if_neg htl0, if_neg (by simp [hline])]
        refine ih (i + 1) k hik' (by simp at hlen ⊢; omega) ?_ ?_
        · intro d hd
          have := hcode (d + 1) (by omega)
          simpa [List.getD_cons_succ] using this
        · have hsub : k - i = (k - (i + 1)) + 1 := by omega
          rw [hsub] at htl
          simpa [List.getD_cons_succ] using htl

/-- The inner old/new scan only reports indices at or after its start. -/
theorem oldNewScanFrom_found_ge :
    ∀ (rest : List (List Char)) (j k : Nat) (t : List Char),
      oldNewScanFrom rest j = ScanResult.found k t → j ≤ k := by
  intro rest
  induction rest with
  | nil =>
    intro j k t h
    simp [oldNewScanFrom] at h
  | cons line rs ih =>
    intro j k t h
    simp only [oldNewScanFrom] at h
    split at h
    · split at h
      · cases h
        omega
      · have := ih (j + 1) k t h
        omega
    · split at h
      · cases h
      · have := ih (j + 1) k t h
        omega

/-- Any entry built by the comment branch's core targets exactly the
code line the lookahead reported. -/
theorem commentEntryCore_num :
    ∀ (k : Nat) (line code_line : List Char) (e : Entry),
      commentEntryCore k line code_line = some e → e.new_line_num = k := by
  intro k line code_line e h
  simp only [commentEntryCore] at h
  split at h
  · split at h
    · split at h
      · cases Option.some.inj h
        rfl
      · exact absurd h (by simp)
    · split at h
      · cases Option.some.inj h
        rfl
      · exact absurd h (by simp)
  · exact absurd h (by simp)

/-- An entry emitted by the comment branch targets a line strictly after
the triggering comment line. -/
theorem commentBranch_some :
    ∀ (lines : List (List Char)) (i : Nat) (line : List Char) (e : Entry),
      commentBranch lines i line = some e → i + 1 ≤ e.new_line_num := by
  intro lines i line e h
  unfold commentBranch at h
  cases hfind : find_next_relevant_line lines (i + 1) with
  | none =>
    rw [hfind] at h
    exact absurd h (by simp)
  | some p =>
    obtain ⟨k, cl⟩ := p
    rw [hfind] at h
    simp only [] at h
    have hge : i + 1 ≤ k :=
      findNextRelevantFrom_ge (lines.drop (i + 1)) (i + 1) k cl hfind
    have hnum := commentEntryCore_num k line cl e h
    omega

/-- An emitted entry targets a line strictly after the cursor, and the
next cursor value is one past the target. -/
theorem stepAt_some :
    ∀ (lines : List (List Char)) (i : Nat) (line : List Char) (e : Entry)
      (n : Nat), stepAt lines i line = (some e, n) →
      i + 1 ≤ e.new_line_num ∧ n = e.new_line_num + 1 := by
  intro lines i line e n h
  unfold stepAt at h
  split at h
  · cases hex : extract_quoted_robust line with
    | none =>
      rw [hex] at h
      simp at h
    | some source =>
      rw [hex] at h
      cases hscan : oldNewScan lines (i + 1) with
      | found j t =>
        rw [hscan] at h
        simp only [Prod.mk.injEq] at h
        obtain ⟨h1, h2⟩ := h
        cases Option.some.inj h1
        have hj : i + 1 ≤ j :=
          oldNewScanFrom_found_ge (lines.drop (i + 1)) (i + 1) j t hscan
        exact ⟨hj, h2.symm⟩
      | blocked j =>
        rw [hscan] at h
        simp at h
      | exhausted =>
        rw [hscan] at h
        simp at h
  · split at h
    · cases hcb : commentBranch lines i line with
      | none =>
        rw [hcb] at h
        simp at h
      | some e0 =>
        rw [hcb] at h
        simp only [Prod.mk.injEq] at h
        obtain ⟨h1, h2⟩ := h
        cases Option.some.inj h1
        exact ⟨commentBranch_some lines i line _ hcb, h2.symm⟩
    · simp at h

/-- When no entry is emitted, the cursor advances by exactly one. -/
theorem stepAt_none :
    ∀ (lines : List (List Char)) (i : Nat) (line : List Char) (n : Nat),
      stepAt lines i line = (none, n) → n = i + 1 := by
  intro lines i line n h
  unfold stepAt at h
  split at h
  · cases hex : extract_quoted_robust line with
    | none =>
      rw [hex] at h
      simpa using (Prod.mk.injEq .. ▸ h).2.symm
    | some source =>
      rw [hex] at h
      cases hscan : oldNewScan lines (i + 1) with
      | found j t =>
        rw [hscan] at h
        simp at h
      | blocked j =>
        rw [hscan] at h
        simpa using (Prod.mk.injEq .. ▸ h).2.symm
      | exhausted =>
        rw [hscan] at h
        simpa using (Prod.mk.injEq .. ▸ h).2.symm
  · split at h
    · cases hcb : commentBranch lines i line with
      | none =>
        rw [hcb] at h
        simpa using (Prod.mk.injEq .. ▸ h).2.symm
      | some e0 =>
        rw [hcb] at h
        simp at h
    · simpa using (Prod.mk.injEq .. ▸ h).2.symm

/-- The cursor strictly advances in every iteration of the loop. -/
theorem stepAt_snd :
    ∀ (lines : List (List Char)) (i : Nat) (line : List Char)
      (o : Option Entry) (n : Nat),
      stepAt lines i line = (o, n) → i + 1 ≤ n := by
  intro lines i line o n h
  cases o with
  | none => exact (stepAt_none lines i line n h).ge
  | some e =>
    have := stepAt_some lines i line e n h
    omega

/-- With fuel at least the number of lines left of the cursor, the loop
never runs out of fuel. -/
theorem parseLoopO_isSome :
    ∀ (lines : List (List Char)) (fuel : Nat), ∀ i : Nat,
      lines.length - i ≤ fuel → (parseLoopO lines fuel i).isSome = true := by
  intro lines fuel
  induction fuel with
  | zero =>
    intro i h
    have : lines.length ≤ i := by omega
    simp [parseLoopO, this]
  | succ fuel ih =>
    intro i h
    simp only [parseLoopO]
    split
    · rfl
    · rename_i hlt
      cases hstep : stepAt lines i (lines.getD i []) with
      | mk o n =>
        have hn : i + 1 ≤ n := stepAt_snd lines i (lines.getD i []) o n hstep
        have hfuel : lines.length - n ≤ fuel := by omega
        cases o with
        | some e =>
          simpa [Option.isSome_map] using ih n hfuel
        | none =>
          exact ih n hfuel

/-- Entries produced by the loop target lines at or after the cursor,
with strictly increasing target line numbers. -/
theorem parseLoopO_mono :
    ∀ (lines : List (List Char)) (fuel : Nat), ∀ (i : Nat) (es : List Entry),
      parseLoopO lines fuel i = some es →
      (∀ e ∈ es, i ≤ e.new_line_num) ∧
      es.Pairwise (fun a b => a.new_line_num < b.new_line_num) := by
  intro lines fuel
  induction fuel with
  | zero =>
    intro i es h
    simp only [parseLoopO] at h
    split at h
    · cases Option.some.inj h
      exact ⟨fun e he => absurd he (List.not_mem_nil e), List.Pairwise.nil⟩
    · exact absurd h (by simp)
  | succ fuel ih =>
    intro i es h
    simp only [parseLoopO] at h
    split at h
    · cases Option.some.inj h
      exact ⟨fun e he => absurd he (List.not_mem_nil e), List.Pairwise.nil⟩
    · cases hstep : stepAt lines i (lines.getD i []) with
      | mk o n =>
        rw [hstep] at h
        cases o with
        | some e0 =>
          simp only [Option.map_eq_some'] at h
          obtain ⟨rest, hrest, hes⟩ := h
          obtain ⟨hnum, hn⟩ :=
            stepAt_some lines i (lines.getD i []) e0 n hstep
          obtain ⟨hge, hpw⟩ := ih n rest hrest
          subst hes
          constructor
          · intro e he
            rcases List.mem_cons.mp he with rfl | hmem
            · omega
            · have := hge e hmem
              omega
          · refine List.Pairwise.cons ?_ hpw
            intro e hmem
            have := hge e hmem
            omega
        | none =>
          have hn : n = i + 1 :=
            stepAt_none lines i (lines.getD i []) n hstep
          obtain ⟨hge, hpw⟩ := ih n es h
          refine ⟨?_, hpw⟩
          intro e he
          have := hge e he
          omega

/-! Characterization of the Quoted-Span Extractor. -/

/-- On a line that splits as quote-free preamble, quote, middle, quote,
quote-free tail, the extractor returns exactly the middle. -/
theorem extract_quoted_robust_split :
    ∀ (a s b : List Char), '"' ∉ a → '"' ∉ b →
      extract_quoted_robust (a ++ '"' :: (s ++ '"' :: b)) = some s := by
  intro a s b ha hb
  have hfind : py_find '"' (a ++ '"' :: (s ++ '"' :: b)) = some a.length :=
    py_find_split a (s ++ '"' :: b) ha
  have hrevsplit :
      (a ++ '"' :: (s ++ '"' :: b)).reverse =
        b.reverse ++ '"' :: (s.reverse ++ '"' :: a.reverse) := by
    simp [List.reverse_append]
  have hrfind0 :
      py_find '"' (a ++ '"' :: (s ++ '"' :: b)).reverse =
        some b.length := by
    rw [hrevsplit]
    have := py_find_split b.reverse (s.reverse ++ '"' :: a.reverse)
      (by simpa using hb)
    simpa using this
  have hlen : (a ++ '"' :: (s ++ '"' :: b)).length =
      a.length + s.length + b.length + 2 := by
    simp
    omega
  have hrfind : py_rfind '"' (a ++ '"' :: (s ++ '"' :: b)) =
      some (a.length + s.length + 1) := by
    simp only [py_rfind, hrfind0, Option.map_some']
    rw [hlen]
    congr 1
    omega
  simp only [extract_quoted_robust, hfind, hrfind]
  rw [if_neg (by omega)]
  congr 1
  have hdrop : (a ++ '"' :: (s ++ '"' :: b)).drop (a.length + 1) =
      s ++ '"' :: b := by
    have h1 : a ++ '"' :: (s ++ '"' :: b) =
        (a ++ ['"']) ++ (s ++ '"' :: b) := by simp
    rw [h1]
    have h2 : a.length + 1 = (a ++ ['"']).length := by simp
    rw [h2, List.drop_left]
  rw [hdrop]
  have htake : a.length + s.length + 1 - (a.length + 1) = s.length := by
    omega
  rw [htake]
  have h3 : s ++ '"' :: b = s ++ ('"' :: b) := rfl
  rw [h3, List.take_left]

/-- With fewer than two quote characters the extractor returns nothing. -/
theorem extract_quoted_robust_small :
    ∀ line : List Char, line.count '"' < 2 →
      extract_quoted_robust line = none := by
  intro line h
  by_cases hmem : '"' ∈ line
  · rcases first_split hmem with ⟨a, t, rfl, ha⟩
    have hcta : a.count '"' = 0 := List.count_eq_zero.mpr ha
    have hct : (a ++ '"' :: t).count '"' = t.count '"' + 1 := by
      simp [List.count_append, hcta, List.count_cons]
    have htz : t.count '"' = 0 := by omega
    have hmt : '"' ∉ t := List.count_eq_zero.mp htz
    have hfind : py_find '"' (a ++ '"' :: t) = some a.length :=
      py_find_split a t ha
    have hrevsplit : (a ++ '"' :: t).reverse =
        t.reverse ++ '"' :: a.reverse := by
      simp [List.reverse_append]
    have hrfind0 : py_find '"' (a ++ '"' :: t).reverse = some t.length := by
      rw [hrevsplit]
      have := py_find_split t.reverse a.reverse (by simpa using hmt)
      simpa using this
    have hlen : (a ++ '"' :: t).length = a.length + t.length + 1 := by
      simp
      omega
    have hrfind : py_rfind '"' (a ++ '"' :: t) = some a.length := by
      simp only [py_rfind, hrfind0, Option.map_some']
      rw [hlen]
      congr 1
      omega
    simp [extract_quoted_robust, hfind, hrfind]
  · simp [extract_quoted_robust, py_find_of_not_mem hmem]

/-- With at least two quote characters the extractor succeeds. -/
theorem extract_quoted_robust_isSome :
    ∀ line : List Char, 2 ≤ line.count '"' →
      (extract_quoted_robust line).isSome = true := by
  intro line h
  have hpos : 0 < line.count '"' := by omega
  have hmem : '"' ∈ line := List.count_pos_iff.mp hpos
  rcases first_split hmem with ⟨a, t, rfl, ha⟩
  have hcta : a.count '"' = 0 := List.count_eq_zero.mpr ha
  have hct : (a ++ '"' :: t).count '"' = t.count '"' + 1 := by
    simp [List.count_append, hcta, List.count_cons]
  have htpos : 0 < t.count '"' := by omega
  have hmt : '"' ∈ t := List.count_pos_iff.mp htpos
  rcases last_split hmt with ⟨s, b, rfl, hb⟩
  rw [extract_quoted_robust_split a s b ha hb]
  rfl

/-! Claim theorems. -/

/-- C1 counterexample: on the input `old "A"` / `translate t:` /
`new "B"`, the old/new inner scan crosses the `translate ` block
boundary at index 1 and emits an entry with target line 2, which lies
past the boundary -- refuting the claim that every target lies strictly
before the next block-boundary line. -/
theorem renpy_c1_cx :
    on_read_source demoOldBoundary =
      [⟨ "A".toList, "B".toList, 2, FormatType.old_new, none⟩] ∧
    pyStartswith kwTranslate (pyStrip (demoOldBoundary.getD 1 [])) = true :=
  ⟨ rfl, rfl⟩

/-- C1 (amended): every emitted entry's target line lies strictly after
the triggering line, and the lookahead scanner never inspects (so the
comment path never targets) a line at or before a `translate ` block
boundary; the old/new inner scan, however, is not stopped by such a
boundary. -/
theorem renpy_c1_amended :
    (∀ (lines : List (List Char)) (i : Nat) (line : List Char) (e : Entry)
       (n : Nat), stepAt lines i line = (some e, n) →
       i < e.new_line_num) ∧
    (∀ (lines : List (List Char)) (start k : Nat) (l : List Char),
       find_next_relevant_line lines start = some (k, l) →
       ∀ m, start ≤ m → m ≤ k →
         pyStartswith kwTranslate (pyStrip (lines.getD m [])) = false) := by
  constructor
  · intro lines i line e n h
    have := stepAt_some lines i line e n h
    omega
  · intro lines start k l h m hsm hmk
    have hd := findNextRelevantFrom_no_translate (lines.drop start) start k l
      h (m - start) (by omega)
    rw [getD_drop ([] : List Char) lines start (m - start)] at hd
    have hms : start + (m - start) = m := by omega
    rw [hms] at hd
    exact hd

/-- C1 witness: both parts of the amended claim instantiated on
concrete inputs. -/
theorem renpy_c1_witness :
    (0 : Nat) <
      (Entry.mk ( "A".toList ) ( "B".toList ) 1 FormatType.old_new
        none).new_line_num ∧
    pyStartswith kwTranslate (pyStrip (demoComment.getD 1 [])) = false :=
  ⟨renpy_c1_amended.1 demoOldNew 0 (demoOldNew.getD 0 []) _ 2 rfl,
   renpy_c1_amended.2 demoComment 1 1 (demoComment.getD 1 []) rfl 1
     (Nat.le_refl 1) (Nat.le_refl 1)⟩

/-- C2: the reader's own docstring promises that a `voice ...` directive
between `# happy "Hi!"` and `happy "Hi!"` is skipped, but
`voice "v.ogg"` itself matches `CODE_TRANSLATION_START_PATTERN`, so the
lookahead halts on it, the tags `happy` and `voice` differ, and the
parse emits no entry at all instead of the claimed single
`comment_tag` entry. -/
theorem renpy_c2_bug :
    on_read_source demoVoice = [] ∧
    codeMatch (pyStrip ( "voice \"v.ogg\"".toList )) = true ∧
    find_next_relevant_line demoVoice 1 =
      some (1, "voice \"v.ogg\"".toList ) :=
  ⟨ rfl, rfl, rfl⟩

/-- C3: the parse is total -- for every input line sequence the fuelled
loop, run with fuel equal to the number of lines, returns an entry list
and never the fuel-exhaustion value. -/
theorem renpy_c3 :
    ∀ lines : List (List Char),
      parseLoopO lines lines.length 0 = some (on_read_source lines) := by
  intro lines
  have h := parseLoopO_isSome lines lines.length 0 (by omega)
  obtain ⟨es, hes⟩ := Option.isSome_iff_exists.mp h
  rw [hes]
  simp [on_read_source, hes]

/-- C4: on any line that decomposes as quote-free text, a quote, a
middle span (interior quotes allowed), a quote, and quote-free text,
the extractor returns exactly the middle span; with fewer than two
quote characters it returns nothing, and with at least two it always
succeeds. -/
theorem renpy_c4 :
    (∀ a s b : List Char, '"' ∉ a → '"' ∉ b →
       extract_quoted_robust (a ++ '"' :: (s ++ '"' :: b)) = some s) ∧
    (∀ line : List Char, line.count '"' < 2 →
       extract_quoted_robust line = none) ∧
    (∀ line : List Char, 2 ≤ line.count '"' →
       (extract_quoted_robust line).isSome = true) :=
  ⟨extract_quoted_robust_split, extract_quoted_robust_small,
   extract_quoted_robust_isSome⟩

/-- C4 witness: the extractor evaluated through the claim theorem on a
line with interior quotes, a line with no quotes, and a two-quote
line. -/
theorem renpy_c4_witness :
    extract_quoted_robust ( "say \"a \"b\" c\"".toList ) =
      some ( "a \"b\" c".toList ) ∧
    extract_quoted_robust ( "no quotes here".toList ) = none ∧
    (extract_quoted_robust ( "x \"y\" z".toList )).isSome = true :=
  ⟨renpy_c4.1 ( "say ".toList ) ( "a \"b\" c".toList ) [] (by decide)
     (by decide),
   renpy_c4.2.1 ( "no quotes here".toList ) (by decide),
   renpy_c4.2.2 ( "x \"y\" z".toList ) (by decide)⟩

/-- C5: the two-line input `old "A"` / `new "B"` yields exactly one
entry with format `old_new`, source `A`, translated `B`, no tag, and
target line index 1 (the `new` line). -/
theorem renpy_c5 :
    on_read_source demoOldNew =
      [⟨ "A".toList, "B".toList, 1, FormatType.old_new, none⟩] := rfl

/-- C6 counterexample: the parenthetical about `old` lines is false --
on `old "A"` / `translate t:` / `new "B"` the inner scan of the
triggering `old` line meets the block boundary first yet still emits an
entry (it crosses the boundary and pairs with the later `new` line). -/
theorem renpy_c6_cx :
    oldNewScan demoOldBoundary 1 = ScanResult.found 2 ( "B".toList ) ∧
    (on_read_source demoOldBoundary).length = 1 :=
  ⟨ rfl, rfl⟩

/-- C6 (amended): when the lookahead scanner reaches a `translate `
line before any code-candidate line it reports no match, and a
triggering comment line then yields no entry with the cursor advancing
by one; the old/new inner scan, however, is not stopped by the
boundary. -/
theorem renpy_c6_amended :
    (∀ (lines : List (List Char)) (start k : Nat),
       start ≤ k → k < lines.length →
       (∀ m, start ≤ m → m < k →
          codeMatch (pyStrip (lines.getD m [])) = false) →
       pyStartswith kwTranslate (pyStrip (lines.getD k [])) = true →
       find_next_relevant_line lines start = none) ∧
    (∀ (lines : List (List Char)) (i : Nat) (line : List Char),
       commentMatch (pyStrip line) = true →
       pyStartswith kwOld (pyStrip line) = false →
       find_next_relevant_line lines (i + 1) = none →
       stepAt lines i line = (none, i + 1)) := by
  constructor
  · intro lines start k hsk hk hcode htl
    unfold find_next_relevant_line
    refine findNextRelevantFrom_none (lines.drop start) start k hsk ?_ ?_ ?_
    · rw [List.length_drop]
      omega
    · intro d hd
      rw [getD_drop ([] : List Char) lines start d]
      exact hcode (start + d) (by omega) hd
    · rw [getD_drop ([] : List Char) lines start (k - start)]
      have : start + (k - start) = k := by omega
      rw [this]
      exact htl
  · intro lines i line hcm hold hfind
    simp [stepAt, commentBranch, hold, hcm, hfind]

/-- C6 witness: both parts of the amended claim instantiated on
concrete inputs. -/
theorem renpy_c6_witness :
    find_next_relevant_line demoTl 0 = none ∧
    stepAt demoCmtTl 0 (demoCmtTl.getD 0 []) = (none, 1) :=
  ⟨renpy_c6_amended.1 demoTl 0 0 (Nat.le_refl 0) (by decide)
     (fun m _ h2 => absurd h2 (Nat.not_lt_zero m)) (by decide),
   renpy_c6_amended.2 demoCmtTl 0 (demoCmtTl.getD 0 []) (by decide)
     (by decide) rfl⟩

/-- C7 counterexample: on `old "A"` / `old "B"` / `new "C"` the inner
scan of the first `old` line examines line 1 (stopping there), yet the
cursor resumes at 1 -- not one past the last examined line -- so line 1
is revisited by the outer loop and even produces an entry, refuting the
claim. -/
theorem renpy_c7_cx :
    oldNewScan demoTwoOldNew 1 = ScanResult.blocked 1 ∧
    stepAt demoTwoOldNew 0 (demoTwoOldNew.getD 0 []) = (none, 1) ∧
    on_read_source demoTwoOldNew =
      [⟨ "B".toList, "C".toList, 2, FormatType.old_new, none⟩] :=
  ⟨ rfl, rfl, rfl⟩

/-- C7 (amended): after the inner scan of an `old` line at cursor `i`
whose quoted span extracts, the cursor resumes at one past the matched
`new` line when the scan emitted an entry, and at `i + 1` -- one past
the triggering `old` line, revisiting the scanned lines -- when the
scan stopped without emitting or exhausted the input. -/
theorem renpy_c7_amended :
    ∀ (lines : List (List Char)) (i : Nat) (line source : List Char),
      pyStartswith kwOld (pyStrip line) = true →
      extract_quoted_robust line = some source →
      (∀ (j : Nat) (t : List Char),
         oldNewScan lines (i + 1) = ScanResult.found j t →
         stepAt lines i line =
           (some ⟨source, t, j, FormatType.old_new, none⟩, j + 1)) ∧
      (∀ j : Nat, oldNewScan lines (i + 1) = ScanResult.blocked j →
         stepAt lines i line = (none, i + 1)) ∧
      (oldNewScan lines (i + 1) = ScanResult.exhausted →
         stepAt lines i line = (none, i + 1)) := by
  intro lines i line source hold hex
  refine ⟨?_, ?_, ?_⟩
  · intro j t hscan
    simp [stepAt, hold, hex, hscan]
  · intro j hscan
    simp [stepAt, hold, hex, hscan]
  · intro hscan
    simp [stepAt, hold, hex, hscan]

/-- C7 witness: the amended claim instantiated on a matched and on an
unmatched `old` line. -/
theorem renpy_c7_witness :
    stepAt demoOldNew 0 (demoOldNew.getD 0 []) =
      (some ⟨ "A".toList, "B".toList, 1, FormatType.old_new, none⟩, 2) ∧
    stepAt demoTwoOld 0 (demoTwoOld.getD 0 []) = (none, 1) :=
  ⟨(renpy_c7_amended demoOldNew 0 (demoOldNew.getD 0 []) ( "A".toList )
      (by decide) rfl).1 1 ( "B".toList ) rfl,
   (renpy_c7_amended demoTwoOld 0 (demoTwoOld.getD 0 []) ( "A".toList )
      (by decide) rfl).2.1 1 rfl⟩

/-- C8: the entries produced from any input have strictly increasing --
hence pairwise distinct -- target line numbers: the cursor only moves
forward and no consumed line is targeted twice. -/
theorem renpy_c8 :
    ∀ lines : List (List Char),
      (on_read_source lines).Pairwise
        (fun a b => a.new_line_num < b.new_line_num) ∧
      (on_read_source lines).Pairwise
        (fun a b => a.new_line_num ≠ b.new_line_num) := by
  intro lines
  have hsome := parseLoopO_isSome lines lines.length 0 (by omega)
  obtain ⟨es, hes⟩ := Option.isSome_iff_exists.mp hsome
  have hm := (parseLoopO_mono lines lines.length 0 es hes).2
  have hor : on_read_source lines = es := by
    simp [on_read_source, hes]
  rw [hor]
  exact ⟨hm, hm.imp (fun h => Nat.ne_of_lt h)⟩

/-- C9: during the old/new inner scan, a `new `-prefixed line whose
quoted span fails to extract neither stops the scan nor emits -- the
scan from that line equals the scan from the next line, so a later
valid `new ` line can still complete the pair. -/
theorem renpy_c9 :
    ∀ (lines : List (List Char)) (j : Nat), j < lines.length →
      pyStartswith kwNew (pyStrip (lines.getD j [])) = true →
      extract_quoted_robust (lines.getD j []) = none →
      oldNewScan lines j = oldNewScan lines (j + 1) := by
  intro lines j hj h1 h2
  unfold oldNewScan
  rw [drop_eq_getD_cons [] lines j hj]
  generalize hL : lines.getD j [] = L at h1 h2 ⊢
  simp [oldNewScanFrom, h1, h2]

/-- C9 witness: the scan skips the malformed line `new B` and still
finds the later `new "C"` line. -/
theorem renpy_c9_witness :
    oldNewScan demoBadNew 0 = oldNewScan demoBadNew 1 :=
  renpy_c9 demoBadNew 0 (by decide) (by decide) rfl

/-- C10: a comment line is disqualified from supplying a source span
exactly when the text after its leading `#`, left-stripped, extends the
literal prefix `game/` or `renpy/`; a comment starting with any other
text such as `images` still supplies a source span and produces an
entry. -/
theorem renpy_c10 :
    (∀ line : List Char,
       comment_disqualified line = true ↔
         ((∃ t, pyLstrip (afterHash line) = kwGame ++ t) ∨
          (∃ t, pyLstrip (afterHash line) = kwRenpy ++ t))) ∧
    on_read_source demoImages =
      [⟨ "Hi".toList, "Hi2".toList, 1, FormatType.comment_tag,
         some ( "images".toList )⟩] := by
  constructor
  · intro line
    simp only [comment_disqualified, Bool.or_eq_true]
    rw [pyStartswith_iff, pyStartswith_iff]
  · rfl
